import Mathlib

/-!
Shallow embedding of the "Today I Bookmarked" bookmark manager
(source: src/unnamed/part_000 = the React App module, src/src/data/bookmarks.ts =
seed data and `Bookmark` type, src/src/utils/detectUrlType.ts = the URL classifier;
only its re-export under src/netlify mirrors the same rules).

Platform builtins that the source calls (`new URL`, `Date.parse`,
`JSON.parse`/`JSON.stringify`, `localStorage`, `crypto.randomUUID`,
`Array.prototype.sort`) are modelled explicitly below; each model carries a doc
comment describing the modelled subset.  All repository functions are translated
line by line from the TypeScript source.
-/

namespace BookmarkManager

/-! ### Character-list string helpers

The embedding works over `String.data` (lists of characters) with structural
recursion so that every definition reduces in the kernel.  These model the
JavaScript string primitives used by the source (`trim`, `toLowerCase`,
`startsWith`, `endsWith`, `includes`, `Array.prototype.join`). -/

/-- Model of JavaScript `String.prototype.trim`: strip leading and trailing
whitespace. -/
def strTrim (s : String) : String :=
  ⟨((s.data.dropWhile Char.isWhitespace).reverse.dropWhile Char.isWhitespace).reverse⟩

/-- Model of JavaScript `String.prototype.toLowerCase` (ASCII case folding). -/
def strLower (s : String) : String :=
  ⟨s.data.map Char.toLower⟩

/-- Model of JavaScript `String.prototype.startsWith`. -/
def strStartsWith (s p : String) : Bool :=
  p.data.isPrefixOf s.data

/-- Model of JavaScript `String.prototype.endsWith`. -/
def strEndsWith (s p : String) : Bool :=
  p.data.isSuffixOf s.data

/-- Model of JavaScript `String.prototype.includes`: substring occurrence. -/
def strContains (hay needle : String) : Bool :=
  hay.data.tails.any (fun t => needle.data.isPrefixOf t)

/-- Model of JavaScript `Array.prototype.join(' ')` on an array of strings. -/
def joinSpace : List String → String
  | [] => ""
  | [s] => s
  | s :: rest => s ++ " " ++ joinSpace rest

/-- Split a character list at the first occurrence of the separator
(helper for the URL parser model); `none` when the separator never occurs. -/
def splitOnce (sep : List Char) : List Char → Option (List Char × List Char)
  | [] => none
  | c :: rest =>
    if sep.isPrefixOf (c :: rest) then some ([], (c :: rest).drop sep.length)
    else (splitOnce sep rest).map (fun pr => (c :: pr.1, pr.2))

/-! ### JSON values

`JSON.parse` output is modelled by the inductive `JValue`; numbers are modelled
as integers (no claim involves fractional JSON numbers).  Object key lookup
takes the first matching key. -/

inductive JValue where
  | jnull : JValue
  | jbool : Bool → JValue
  | jnum : Int → JValue
  | jstr : String → JValue
  | jarr : List JValue → JValue
  | jobj : List (String × JValue) → JValue

/-- Property access `v[k]` on a parsed JSON value: defined (`some`) exactly when
`v` is an object with key `k`, mirroring JavaScript member access on
`JSON.parse` output (absent property reads as `undefined` = `none`). -/
def jGetV (v : JValue) (k : String) : Option JValue :=
  match v with
  | .jobj fs => fs.lookup k
  | _ => none

mutual

/-- Model of JavaScript `String(x)` coercion for parsed JSON values
(array elements `null` render empty inside a join, per `Array.prototype.join`). -/
def jsToString : JValue → String
  | .jnull => "null"
  | .jbool true => "true"
  | .jbool false => "false"
  | .jnum n => toString n
  | .jstr s => s
  | .jarr l => jsToStringArr l
  | .jobj _ => "[object Object]"

/-- Join of array elements for `String([...])` (comma separated, `null` empty). -/
def jsToStringArr : List JValue → String
  | [] => ""
  | [x] => (match x with | .jnull => "" | v => jsToString v)
  | x :: rest =>
      (match x with | .jnull => "" | v => jsToString v) ++ "," ++ jsToStringArr rest

end

/-! ### URL parsing and the URL classifier (src/src/utils/detectUrlType.ts) -/

/-- Hostname and pathname of a parsed URL, the two components the classifier
rules inspect. -/
structure URLRec where
  hostname : String
  pathname : String
deriving DecidableEq

/-- Model of the platform `new URL(s)` constructor, restricted to the
`scheme://host[:port]path` shape that every URL in this repository uses:
an alphabetic scheme, `://`, a non-empty space-free host (lowercased, port
stripped), and a path running to the first `?` or `#` (defaulted to `/`).
Strings without `://` or with an empty host fail to parse (`none`), as they do
in the platform constructor. -/
def jsURL (s : String) : Option URLRec :=
  match splitOnce "://".data s.data with
  | none => none
  | some (scheme, rest) =>
    if scheme ≠ [] ∧ scheme.all Char.isAlpha then
      let auth := rest.takeWhile (fun c => c ≠ '/' ∧ c ≠ '?' ∧ c ≠ '#')
      let tail := rest.drop auth.length
      let host := auth.takeWhile (fun c => c ≠ ':')
      if host ≠ [] ∧ host.all (fun c => c ≠ ' ') then
        let path := tail.takeWhile (fun c => c ≠ '?' ∧ c ≠ '#')
        some ⟨⟨host.map Char.toLower⟩, if path = [] then "/" else ⟨path⟩⟩
      else none
    else none

/-- The closed category enumeration `UrlType` of src/src/data/bookmarks.ts /
src/src/utils/detectUrlType.ts. -/
inductive UrlType where
  | GoogleDoc
  | GoogleSheet
  | MiroBoard
  | GitHub
  | ServiceNow
  | RedHatSource
  | Generic
deriving DecidableEq

/-- The display string of each category, as written in the source literals. -/
def urlTypeName : UrlType → String
  | .GoogleDoc => "Google Doc"
  | .GoogleSheet => "Google Sheet"
  | .MiroBoard => "Miro Board"
  | .GitHub => "GitHub"
  | .ServiceNow => "ServiceNow"
  | .RedHatSource => "Red Hat Source"
  | .Generic => "Generic"

/-- The statically ordered detection rule table `rules` of
src/src/utils/detectUrlType.ts, verbatim. -/
def rules : List (UrlType × (URLRec → Bool)) :=
  [ (.GoogleDoc, fun u =>
      u.hostname == "docs.google.com" && strStartsWith u.pathname "/document/"),
    (.GoogleSheet, fun u =>
      u.hostname == "docs.google.com" && strStartsWith u.pathname "/spreadsheets/"),
    (.MiroBoard, fun u =>
      strEndsWith u.hostname "miro.com" && strStartsWith u.pathname "/app/board/"),
    (.GitHub, fun u => u.hostname == "github.com"),
    (.ServiceNow, fun u => strEndsWith u.hostname ".service-now.com"),
    (.RedHatSource, fun u => u.hostname == "source.redhat.com") ]

/-- `detectUrlType` of src/src/utils/detectUrlType.ts: parse the URL (parse
failure yields the fallback), then take the first matching rule
(`rules.find`), else the fallback `Generic`. -/
def detectUrlType (urlString : String) : UrlType :=
  match jsURL urlString with
  | none => .Generic
  | some u =>
    match rules.find? (fun r => r.2 u) with
    | some r => r.1
    | none => .Generic

/-! ### Dates, bookmarks, seed data -/

/-- Read a fixed-width decimal number from characters (helper for the date
parser model); `none` if any character is not a digit. -/
def digitsToNat : List Char → Option Nat
  | [] => some 0
  | c :: rest =>
    if c.isDigit then
      (digitsToNat rest).map (fun n => (c.toNat - '0'.toNat) * 10 ^ rest.length + n)
    else none

/-- Days since the Unix epoch of a civil date (standard days-from-civil
computation; `y ≥ 1`, `1 ≤ m ≤ 12`). -/
def daysFromCivil (y m d : Nat) : Int :=
  let yy := if m ≤ 2 then y - 1 else y
  let era := yy / 400
  let yoe := yy % 400
  let mp := if 2 < m then m - 3 else m + 9
  let doy := (153 * mp + 2) / 5 + d - 1
  let doe := yoe * 365 + yoe / 4 - yoe / 100 + doy
  ((era * 146097 + doe : Nat) : Int) - 719468

/-- Model of the platform `Date.parse`, restricted to the canonical
`YYYY-MM-DDTHH:MM:SS.mmmZ` format that `Date.prototype.toISOString` produces —
the only date format this application ever writes.  Returns the epoch
millisecond value (`getTime`) on success, `none` for `NaN`. -/
def jsDateParse (s : String) : Option Int :=
  match s.data with
  | [y1, y2, y3, y4, '-', m1, m2, '-', d1, d2, 'T',
     h1, h2, ':', i1, i2, ':', s1, s2, '.', f1, f2, f3, 'Z'] =>
    match digitsToNat [y1, y2, y3, y4], digitsToNat [m1, m2], digitsToNat [d1, d2],
          digitsToNat [h1, h2], digitsToNat [i1, i2], digitsToNat [s1, s2],
          digitsToNat [f1, f2, f3] with
    | some y, some mo, some d, some h, some mi, some sec, some ms =>
      if 1 ≤ y ∧ 1 ≤ mo ∧ mo ≤ 12 ∧ 1 ≤ d ∧ d ≤ 31 ∧ h ≤ 23 ∧ mi ≤ 59 ∧ sec ≤ 59 then
        some ((((daysFromCivil y mo d * 24 + h) * 60 + mi) * 60 + sec) * 1000 + ms)
      else none
    | _, _, _, _, _, _, _ => none
  | _ => none

/-- The `Bookmark` record type of src/src/data/bookmarks.ts. -/
structure Bookmark where
  id : String
  title : String
  url : String
  urlType : UrlType
  tags : List String
  note : String
  savedAt : String
deriving DecidableEq

/-- The `seedBookmarks` literal of src/src/data/bookmarks.ts, verbatim. -/
def seedBookmarks : List Bookmark :=
  [ { id := "til-vite-aliases",
      title := "Speed up your Vite projects with path aliases",
      url := "https://vite.dev/guide/features.html#path-aliases",
      urlType := .Generic,
      tags := ["vite", "frontend", "productivity"],
      note := "Quick reference for setting up @ alias in Vite config.",
      savedAt := "2024-07-02T10:15:00.000Z" },
    { id := "article-css-clamp",
      title := "Responsive typography with clamp()",
      url := "https://web.dev/min-max-clamp/",
      urlType := .Generic,
      tags := ["css", "design"],
      note := "Explains how to use clamp() for type scales that adapt to viewport.",
      savedAt := "2024-08-15T08:02:00.000Z" },
    { id := "doc-aria-patterns",
      title := "ARIA Authoring Practices Guide",
      url := "https://www.w3.org/WAI/ARIA/apg/",
      urlType := .Generic,
      tags := ["accessibility", "reference"],
      note := "Great resource for common widget patterns; check combobox behavior.",
      savedAt := "2024-05-28T21:30:00.000Z" },
    { id := "repo-zustand",
      title := "Zustand State Management",
      url := "https://github.com/pmndrs/zustand",
      urlType := .GitHub,
      tags := ["state", "react"],
      note := "Simple global store—consider for future state sharing if app grows.",
      savedAt := "2024-09-04T14:45:00.000Z" },
    { id := "blog-dark-mode-css",
      title := "Prefers-color-scheme: Dark Mode in CSS",
      url := "https://css-tricks.com/dark-mode/",
      urlType := .Generic,
      tags := ["css", "ui"],
      note := "Covers toggles and system preference detection; useful for theme switch.",
      savedAt := "2024-06-11T12:10:00.000Z" } ]

/-! ### The sort comparator and a stable sort model

The source sorts with `merged.sort((a, b) => new Date(b.savedAt).getTime() -
new Date(a.savedAt).getTime())`.  `Array.prototype.sort` is specified (ES2019)
to be stable, and a comparator result of `NaN` is treated as `+0`; for a
consistent comparator the stable sorted result is unique, so the model below
uses a stable insertion sort over the same comparator. -/

/-- The comparator `(a, b) => new Date(b.savedAt).getTime() - new
Date(a.savedAt).getTime()` (a `NaN` operand makes the result `NaN`, which
`Array.prototype.sort` treats as `+0`). -/
def bookmarkCmp (a b : Bookmark) : Int :=
  match jsDateParse a.savedAt, jsDateParse b.savedAt with
  | some ta, some tb => tb - ta
  | _, _ => 0

/-- `a` may stay before `b` under the comparator (comparator value `≤ 0`). -/
def bookmarkLe (a b : Bookmark) : Bool :=
  bookmarkCmp a b ≤ 0

/-- Stable insertion into a sorted list (model of one step of the stable
`Array.prototype.sort`): the new element is placed before the first element it
compares `≤ 0` against, hence before equal elements already present only when it
originally preceded them. -/
def jsInsert (le : α → α → Bool) (x : α) : List α → List α
  | [] => [x]
  | y :: ys => if le x y then x :: y :: ys else y :: jsInsert le x ys

/-- Model of stable `Array.prototype.sort` with comparator-derived `le`. -/
def jsSort (le : α → α → Bool) : List α → List α
  | [] => []
  | x :: xs => jsInsert le x (jsSort le xs)

/-! ### dedupeById and combinedBookmarks (src/unnamed/part_000, lines 113–127
and 242–248) -/

/-- Loop body of `dedupeById`: the `seen` set is modelled as the list of ids
already encountered. -/
def dedupeAux (seen : List String) : List Bookmark → List Bookmark
  | [] => []
  | b :: rest =>
    if seen.contains b.id then dedupeAux seen rest
    else b :: dedupeAux (b.id :: seen) rest

/-- `dedupeById` of src/unnamed/part_000: keep the first occurrence of every id. -/
def dedupeById (bookmarks : List Bookmark) : List Bookmark :=
  dedupeAux [] bookmarks

/-- `combinedBookmarks` of src/unnamed/part_000 (lines 242–248): drop user
records whose id collides with a seed id, dedupe the concatenation by id, and
sort descending by `savedAt` with the stable platform sort.  The seed collection
is a parameter here (the source closes over the module constant
`seedBookmarks`). -/
def combinedBookmarks (seed user : List Bookmark) : List Bookmark :=
  jsSort bookmarkLe
    (dedupeById (seed ++ user.filter (fun b => !((seed.map Bookmark.id).contains b.id))))

/-- The numeric sort key of a bookmark (its `getTime` value; only used to state
theorems about bookmarks whose `savedAt` parses). -/
def savedAtKey (b : Bookmark) : Int :=
  (jsDateParse b.savedAt).getD 0

/-- `savedAt` parses as a valid date (the comparator is only consistent on such
bookmarks; every bookmark the application stores satisfies this). -/
def validSavedAt (b : Bookmark) : Bool :=
  (jsDateParse b.savedAt).isSome

/-! ### Lemmas about the sort model -/

theorem mem_jsInsert {le : α → α → Bool} {x y : α} {l : List α} :
    y ∈ jsInsert le x l ↔ y = x ∨ y ∈ l := by
  induction l with
  | nil => simp [jsInsert]
  | cons z zs ih =>
    by_cases h : le x z = true
    · simp [jsInsert, h]
    · simp only [jsInsert, if_neg h, List.mem_cons, ih]
      tauto

theorem jsInsert_perm (le : α → α → Bool) (x : α) (l : List α) :
    List.Perm (jsInsert le x l) (x :: l) := by
  induction l with
  | nil => exact List.Perm.refl _
  | cons y ys ih =>
    by_cases h : le x y = true
    · simp [jsInsert, h]
    · simp only [jsInsert, if_neg h]
      exact (List.Perm.cons y ih).trans (List.Perm.swap x y ys)

theorem jsSort_perm (le : α → α → Bool) (l : List α) :
    List.Perm (jsSort le l) l := by
  induction l with
  | nil => exact List.Perm.refl _
  | cons x xs ih =>
    exact (jsInsert_perm le x (jsSort le xs)).trans (List.Perm.cons x ih)

theorem mem_jsSort {le : α → α → Bool} {x : α} {l : List α} :
    x ∈ jsSort le l ↔ x ∈ l :=
  (jsSort_perm le l).mem_iff

theorem bookmarkCmp_of_valid {a b : Bookmark} (ha : validSavedAt a = true)
    (hb : validSavedAt b = true) :
    bookmarkCmp a b = savedAtKey b - savedAtKey a := by
  unfold validSavedAt at ha hb
  obtain ⟨ta, hta⟩ := Option.isSome_iff_exists.mp ha
  obtain ⟨tb, htb⟩ := Option.isSome_iff_exists.mp hb
  simp [bookmarkCmp, savedAtKey, hta, htb]

theorem bookmarkLe_iff_of_valid {a b : Bookmark} (ha : validSavedAt a = true)
    (hb : validSavedAt b = true) :
    bookmarkLe a b = true ↔ savedAtKey b ≤ savedAtKey a := by
  unfold bookmarkLe
  rw [bookmarkCmp_of_valid ha hb]
  simp only [decide_eq_true_eq]
  omega

/-- Stability of one insertion step: for a fixed key value `t`, inserting a
valid bookmark into a list of valid bookmarks preserves the subsequence of
key-`t` bookmarks exactly as if the new element had been prepended. -/
theorem jsInsert_filter_key (t : Int) {x : Bookmark} {s : List Bookmark}
    (hx : validSavedAt x = true) (hs : ∀ y ∈ s, validSavedAt y = true) :
    (jsInsert bookmarkLe x s).filter (fun b => savedAtKey b == t)
      = (x :: s).filter (fun b => savedAtKey b == t) := by
  induction s with
  | nil => rfl
  | cons y ys ih =>
    have hy : validSavedAt y = true := hs y (by simp)
    have hys : ∀ z ∈ ys, validSavedAt z = true := fun z hz => hs z (by simp [hz])
    by_cases hle : bookmarkLe x y = true
    · simp [jsInsert, hle]
    · have hlt : savedAtKey x < savedAtKey y := by
        have := (bookmarkLe_iff_of_valid hx hy).not.mp (by simp [hle])
        omega
      by_cases hpx : savedAtKey x == t
      · have hpy : (savedAtKey y == t) = false := by
          have : savedAtKey x = t := by simpa using hpx
          simp only [beq_eq_false_iff_ne, ne_eq]
          omega
        simp only [jsInsert, if_neg hle, List.filter_cons, hpy, hpx, ih hys,
          if_false, if_true, Bool.false_eq_true]
      · simp only [jsInsert, if_neg hle, List.filter_cons, ih hys]
        simp [Bool.not_eq_true] at hpx
        simp [hpx]

/-- Stability of the sort model: for each key value, sorting preserves the
relative order (indeed the exact subsequence) of the bookmarks carrying it. -/
theorem jsSort_filter_key (t : Int) {l : List Bookmark}
    (hl : ∀ b ∈ l, validSavedAt b = true) :
    (jsSort bookmarkLe l).filter (fun b => savedAtKey b == t)
      = l.filter (fun b => savedAtKey b == t) := by
  induction l with
  | nil => rfl
  | cons x xs ih =>
    have hx : validSavedAt x = true := hl x (by simp)
    have hxs : ∀ b ∈ xs, validSavedAt b = true := fun b hb => hl b (by simp [hb])
    have hmem : ∀ b ∈ jsSort bookmarkLe xs, validSavedAt b = true :=
      fun b hb => hxs b (mem_jsSort.mp hb)
    calc (jsInsert bookmarkLe x (jsSort bookmarkLe xs)).filter (fun b => savedAtKey b == t)
        = (x :: jsSort bookmarkLe xs).filter (fun b => savedAtKey b == t) :=
          jsInsert_filter_key t hx hmem
      _ = (x :: xs).filter (fun b => savedAtKey b == t) := by
          simp only [List.filter_cons, ih hxs]

/-- Insertion preserves descending sortedness by key (on valid bookmarks). -/
theorem jsInsert_pairwise {x : Bookmark} {s : List Bookmark}
    (hx : validSavedAt x = true) (hs : ∀ y ∈ s, validSavedAt y = true)
    (hp : s.Pairwise (fun a b => savedAtKey b ≤ savedAtKey a)) :
    (jsInsert bookmarkLe x s).Pairwise (fun a b => savedAtKey b ≤ savedAtKey a) := by
  induction s with
  | nil => simp [jsInsert]
  | cons y ys ih =>
    have hy : validSavedAt y = true := hs y (by simp)
    have hys : ∀ z ∈ ys, validSavedAt z = true := fun z hz => hs z (by simp [hz])
    rw [List.pairwise_cons] at hp
    by_cases hle : bookmarkLe x y = true
    · have hyx : savedAtKey y ≤ savedAtKey x := (bookmarkLe_iff_of_valid hx hy).mp hle
      simp only [jsInsert, if_pos hle]
      rw [List.pairwise_cons]
      refine ⟨?_, List.pairwise_cons.mpr hp⟩
      intro z hz
      rcases List.mem_cons.mp hz with rfl | h
      · omega
      · have := hp.1 z h
        omega
    · have hlt : savedAtKey x < savedAtKey y := by
        have := (bookmarkLe_iff_of_valid hx hy).not.mp (by simp [hle])
        omega
      simp only [jsInsert, if_neg hle]
      rw [List.pairwise_cons]
      refine ⟨?_, ih hys hp.2⟩
      intro z hz
      rcases mem_jsInsert.mp hz with rfl | h
      · omega
      · exact hp.1 z h

/-- The sort model produces a list descending in the `savedAt` key (on valid
bookmarks). -/
theorem jsSort_pairwise {l : List Bookmark} (hl : ∀ b ∈ l, validSavedAt b = true) :
    (jsSort bookmarkLe l).Pairwise (fun a b => savedAtKey b ≤ savedAtKey a) := by
  induction l with
  | nil => simp [jsSort]
  | cons x xs ih =>
    have hx : validSavedAt x = true := hl x (by simp)
    have hxs : ∀ b ∈ xs, validSavedAt b = true := fun b hb => hl b (by simp [hb])
    exact jsInsert_pairwise hx (fun b hb => hxs b (mem_jsSort.mp hb)) (ih hxs)

/-! ### Lemmas about dedupeById -/

theorem find_id_cons_eq {x b : Bookmark} (l : List Bookmark)
    (h : (x.id == b.id) = true) :
    (x :: l).find? (fun y => y.id == b.id) = some x := by
  simp only [List.find?_cons, h]

theorem find_id_cons_ne {x b : Bookmark} (l : List Bookmark)
    (h : (x.id == b.id) = false) :
    (x :: l).find? (fun y => y.id == b.id) = l.find? (fun y => y.id == b.id) := by
  simp only [List.find?_cons, h]

theorem mem_of_mem_dedupeAux {seen : List String} {l : List Bookmark} {b : Bookmark}
    (h : b ∈ dedupeAux seen l) : b ∈ l := by
  induction l generalizing seen with
  | nil => simp [dedupeAux] at h
  | cons x rest ih =>
    by_cases hx : seen.contains x.id = true
    · simp only [dedupeAux, if_pos hx] at h
      exact List.mem_cons_of_mem x (ih h)
    · simp only [dedupeAux, if_neg hx, List.mem_cons] at h
      rcases h with h | h
      · simp [h]
      · exact List.mem_cons_of_mem x (ih h)

theorem not_seen_of_mem_dedupeAux {seen : List String} {l : List Bookmark} {b : Bookmark}
    (h : b ∈ dedupeAux seen l) : seen.contains b.id = false := by
  induction l generalizing seen with
  | nil => simp [dedupeAux] at h
  | cons x rest ih =>
    by_cases hx : seen.contains x.id = true
    · simp only [dedupeAux, if_pos hx] at h
      exact ih h
    · simp only [dedupeAux, if_neg hx, List.mem_cons] at h
      rcases h with rfl | h
      · simpa using hx
      · have := ih h
        simp only [List.contains_cons, Bool.or_eq_false_iff] at this
        exact this.2

/-- Every element surviving `dedupeById` is the first occurrence of its id. -/
theorem find_of_mem_dedupeAux {seen : List String} {l : List Bookmark} {b : Bookmark}
    (h : b ∈ dedupeAux seen l) :
    l.find? (fun y => y.id == b.id) = some b := by
  induction l generalizing seen with
  | nil => simp [dedupeAux] at h
  | cons x rest ih =>
    by_cases hx : seen.contains x.id = true
    · simp only [dedupeAux, if_pos hx] at h
      have hb : seen.contains b.id = false := not_seen_of_mem_dedupeAux h
      have hne : (x.id == b.id) = false := by
        rcases hc : (x.id == b.id) with _ | _
        · rfl
        · have hxb : x.id = b.id := by simpa using hc
          rw [hxb] at hx
          rw [hx] at hb
          exact Bool.noConfusion hb
      rw [find_id_cons_ne _ hne]
      exact ih h
    · simp only [dedupeAux, if_neg hx, List.mem_cons] at h
      rcases h with rfl | h
      · exact find_id_cons_eq _ (by simp)
      · have hb : (x.id :: seen).contains b.id = false := not_seen_of_mem_dedupeAux h
        simp only [List.contains_cons, Bool.or_eq_false_iff] at hb
        have hne : (x.id == b.id) = false := by
          rcases hc : (x.id == b.id) with _ | _
          · rfl
          · have hxb : x.id = b.id := by simpa using hc
            simp [hxb] at hb
        rw [find_id_cons_ne _ hne]
        exact ih h

/-- The first occurrence of an unseen id survives `dedupeAux`. -/
theorem mem_dedupeAux_of_find {seen : List String} {l : List Bookmark} {i : Bookmark}
    (hfind : l.find? (fun y => y.id == i.id) = some i)
    (hseen : seen.contains i.id = false) : i ∈ dedupeAux seen l := by
  induction l generalizing seen with
  | nil => simp [List.find?] at hfind
  | cons x rest ih =>
    by_cases hxi : (x.id == i.id) = true
    · rw [find_id_cons_eq _ hxi] at hfind
      simp only [Option.some.injEq] at hfind
      have hxseen : seen.contains x.id = false := by
        have hxid : x.id = i.id := by simpa using hxi
        rw [hxid]; exact hseen
      simp only [dedupeAux]
      rw [if_neg (by simpa using hxseen : ¬ seen.contains x.id = true)]
      rw [hfind]
      exact List.mem_cons_self _ _
    · rw [find_id_cons_ne _ (by simpa using hxi)] at hfind
      by_cases hx : seen.contains x.id = true
      · simp only [dedupeAux, if_pos hx]
        exact ih hfind hseen
      · simp only [dedupeAux, if_neg hx]
        refine List.mem_cons_of_mem x (ih hfind ?_)
        simp only [List.contains_cons, Bool.or_eq_false_iff]
        refine ⟨?_, hseen⟩
        have hne : ¬ i.id = x.id := by
          intro h
          exact hxi (by simp [h])
        simpa using hne

/-- The ids in the output of `dedupeAux` are pairwise distinct. -/
theorem dedupeAux_ids_nodup (seen : List String) (l : List Bookmark) :
    ((dedupeAux seen l).map Bookmark.id).Nodup := by
  induction l generalizing seen with
  | nil => simp [dedupeAux]
  | cons x rest ih =>
    by_cases hx : seen.contains x.id = true
    · simpa only [dedupeAux, if_pos hx] using ih seen
    · simp only [dedupeAux, if_neg hx, List.map_cons, List.nodup_cons]
      refine ⟨?_, ih (x.id :: seen)⟩
      intro hmem
      obtain ⟨b, hb, hbid⟩ := List.mem_map.mp hmem
      have := not_seen_of_mem_dedupeAux hb
      rw [hbid] at this
      simp at this

theorem dedupeById_ids_nodup (l : List Bookmark) :
    ((dedupeById l).map Bookmark.id).Nodup :=
  dedupeAux_ids_nodup [] l

theorem mem_of_mem_dedupeById {l : List Bookmark} {b : Bookmark}
    (h : b ∈ dedupeById l) : b ∈ l :=
  mem_of_mem_dedupeAux h

theorem mem_dedupeById_of_find {l : List Bookmark} {i : Bookmark}
    (hfind : l.find? (fun y => y.id == i.id) = some i) : i ∈ dedupeById l :=
  mem_dedupeAux_of_find hfind rfl

theorem find_of_mem_dedupeById {l : List Bookmark} {b : Bookmark}
    (h : b ∈ dedupeById l) : l.find? (fun y => y.id == b.id) = some b :=
  find_of_mem_dedupeAux h

/-! ### Persistence codec: loadUserBookmarks (src/unnamed/part_000, lines 57–111)

`localStorage.getItem` and `JSON.parse` are modelled by the function argument
`raw : Option (Option JValue)` — `none` is an absent key, `some none` is stored
text that `JSON.parse` throws on, and `some (some v)` is text parsing to `v`.
`new Date().toISOString()` is the parameter `now`; `crypto.randomUUID()` is
modelled by `genId` applied to the record's position (a fresh value per
record). -/

/-- The shape filter of `loadUserBookmarks`: `typeof item === 'object' && item
!== null && 'title' in item && 'url' in item`.  Only JSON objects have named
properties, and `jnull` is excluded explicitly in the source. -/
def loadShapeOK (x : JValue) : Bool :=
  (jGetV x "title").isSome && (jGetV x "url").isSome

/-- The tags normalization shared by load and import:
`Array.isArray(tags) ? tags.filter(t => typeof t === 'string' &&
t.trim().length > 0) : []` (non-arrays yield `[]`, non-string entries are
dropped, whitespace-only strings are dropped, surviving strings are kept
verbatim). -/
def normalizeTags (v : Option JValue) : List String :=
  match v with
  | some (.jarr l) =>
    l.filterMap (fun t =>
      match t with
      | .jstr s => if strTrim s ≠ "" then some s else none
      | _ => none)
  | _ => []

/-- Coerce a kept `urlType` JSON value to the `UrlType` enumeration.  The
source keeps any non-nullish stored value via `??`; values other than the
six category strings are modelled as `Generic` (no claim depends on a stored
out-of-enumeration `urlType`). -/
def coerceUrlType (v : JValue) : UrlType :=
  match v with
  | .jstr s =>
    if s = "Google Doc" then .GoogleDoc
    else if s = "Google Sheet" then .GoogleSheet
    else if s = "Miro Board" then .MiroBoard
    else if s = "GitHub" then .GitHub
    else if s = "ServiceNow" then .ServiceNow
    else if s = "Red Hat Source" then .RedHatSource
    else .Generic
  | _ => .Generic

/-- The per-record normalization of `loadUserBookmarks` (the `.map` body,
lines 75–98): stringify-and-trim `title` (empty falls back to `"Untitled"`),
stringify-and-trim `url`, keep a non-nullish `urlType` else classify, filter
`tags`, default `note`, keep a parseable `savedAt` else `now`, keep a string
`id` else generate one. -/
def normalizeLoaded (now gid : String) (x : JValue) : Bookmark :=
  let title0 := strTrim (jsToString ((jGetV x "title").getD .jnull))
  let url := strTrim (jsToString ((jGetV x "url").getD .jnull))
  { id := match jGetV x "id" with
      | some (.jstr s) => s
      | _ => gid
    title := if title0 = "" then "Untitled" else title0
    url := url
    urlType := match jGetV x "urlType" with
      | some .jnull => detectUrlType url
      | some v => coerceUrlType v
      | none => detectUrlType url
    tags := normalizeTags (jGetV x "tags")
    note := match jGetV x "note" with
      | some (.jstr s) => s
      | _ => ""
    savedAt := match jGetV x "savedAt" with
      | some (.jstr s) => if (jsDateParse s).isSome then s else now
      | _ => now }

/-- Normalize the shape-filtered elements in order, generating a fresh id per
position (model of `.map` whose body calls `crypto.randomUUID()` on demand). -/
def loadEntriesAux (now : String) (genId : Nat → String) (i : Nat) :
    List JValue → List Bookmark
  | [] => []
  | x :: rest => normalizeLoaded now (genId i) x :: loadEntriesAux now genId (i + 1) rest

/-- `loadUserBookmarks` of src/unnamed/part_000 (lines 57–111): absent key,
unparseable text, or a non-array top level yield `[]`; otherwise filter to
object-shaped elements carrying `title` and `url`, normalize each, and drop
normalized records whose `url` does not parse as an absolute URL. -/
def loadUserBookmarks (raw : Option (Option JValue)) (now : String)
    (genId : Nat → String) : List Bookmark :=
  match raw with
  | none => []
  | some none => []
  | some (some (.jarr l)) =>
    (loadEntriesAux now genId 0 (l.filter loadShapeOK)).filter
      (fun b => (jsURL b.url).isSome)
  | some (some _) => []

/-! ### Import (handleImport, src/unnamed/part_000, lines 388–463) -/

/-- The per-element validation of `handleImport` (the `forEach` body, lines
406–443): trim string `title`/`url`/`note` (non-strings become `""`), filter
`tags`, keep a parseable string `savedAt` else `now`, skip the element if the
trimmed `title` or `url` is empty or the `url` does not parse, keep a string
`id` else generate one, and always classify `urlType` from the trimmed url
(the source computes `detectUrlType(url)` unconditionally on import). -/
def normalizeImportEntry (now gid : String) (e : JValue) : Option Bookmark :=
  match e with
  | .jobj _ =>
    let title := match jGetV e "title" with
      | some (.jstr s) => strTrim s
      | _ => ""
    let url := match jGetV e "url" with
      | some (.jstr s) => strTrim s
      | _ => ""
    let note := match jGetV e "note" with
      | some (.jstr s) => strTrim s
      | _ => ""
    let tags := normalizeTags (jGetV e "tags")
    let savedAt := match jGetV e "savedAt" with
      | some (.jstr s) => if (jsDateParse s).isSome then s else now
      | _ => now
    if title = "" ∨ url = "" then none
    else if (jsURL url).isNone then none
    else some
      { id := match jGetV e "id" with
          | some (.jstr s) => s
          | _ => gid
        title := title
        url := url
        urlType := detectUrlType url
        tags := tags
        note := note
        savedAt := savedAt }
  | _ => none

/-- Walk the parsed array in order, skipping invalid elements (model of the
`forEach` accumulating into `imported`); `genId` is indexed by element
position. -/
def importEntriesAux (now : String) (genId : Nat → String) (i : Nat) :
    List JValue → List Bookmark
  | [] => []
  | e :: rest =>
    match normalizeImportEntry now (genId i) e with
    | some b => b :: importEntriesAux now genId (i + 1) rest
    | none => importEntriesAux now genId (i + 1) rest

/-- Accepted entries of an import payload. -/
def importEntries (now : String) (genId : Nat → String) (l : List JValue) :
    List Bookmark :=
  importEntriesAux now genId 0 l

/-- The merge applied by `setUserBookmarks` on import (lines 450–453): imported
entries are placed before the previous collection, deduplicated by id keeping
the first occurrence, and re-sorted by the stable date sort. -/
def importMerge (imported previous : List Bookmark) : List Bookmark :=
  jsSort bookmarkLe (dedupeById (imported ++ previous))

/-- The distinct outcomes of `handleImport`: the `catch` of `JSON.parse`
(`'Import failed. Ensure the JSON is valid.'`), the non-array batch rejection
(`'Import failed: expected an array of bookmarks.'`), the empty-result
condition (`'Import completed, but no valid bookmarks were found.'`), and
success carrying the accepted entries (`'Imported N bookmark(s).'`). -/
inductive ImportOutcome where
  | parseFailed : ImportOutcome
  | notArray : ImportOutcome
  | emptyResult : ImportOutcome
  | imported : List Bookmark → ImportOutcome
deriving DecidableEq

/-- `handleImport` of src/unnamed/part_000 (lines 388–463) as a pure function
from the parse result of the selected file's text (same `Option (Option _)`
convention as `loadUserBookmarks`) and the previous user collection to the
reported outcome and the new user collection.  The user collection changes only
on the success outcome. -/
def importProcess (raw : Option (Option JValue)) (prev : List Bookmark)
    (now : String) (genId : Nat → String) : ImportOutcome × List Bookmark :=
  match raw with
  | none => (.parseFailed, prev)
  | some none => (.parseFailed, prev)
  | some (some (.jarr l)) =>
    let imp := importEntries now genId l
    if imp.isEmpty then (.emptyResult, prev)
    else (.imported imp, importMerge imp prev)
  | some (some _) => (.notArray, prev)

/-! ### Export (handleExport, src/unnamed/part_000, lines 465–485) -/

/-- `JSON.stringify` of one bookmark, at the JSON-value level; key order is the
property creation order used everywhere in the source. -/
def bookmarkToJValue (b : Bookmark) : JValue :=
  .jobj
    [ ("id", .jstr b.id),
      ("title", .jstr b.title),
      ("url", .jstr b.url),
      ("urlType", .jstr (urlTypeName b.urlType)),
      ("tags", .jarr (b.tags.map .jstr)),
      ("note", .jstr b.note),
      ("savedAt", .jstr b.savedAt) ]

/-- `handleExport`'s payload `JSON.stringify(userBookmarks, null, 2)`, at the
JSON-value level (pretty-printing to text and re-parsing is the identity on
JSON values): a JSON array of exactly the user collection, seed excluded. -/
def exportSnapshot (user : List Bookmark) : JValue :=
  .jarr (user.map bookmarkToJValue)

/-! ### Filter/search (filteredBookmarks, src/unnamed/part_000, lines 260–282,
and getHostname, lines 48–55) -/

/-- The two filter controls. -/
structure Filters where
  search : String
  tag : String
deriving DecidableEq

/-- `getHostname` of src/unnamed/part_000: hostname with one leading `www.`
stripped; a URL that fails to parse falls back to the raw string. -/
def getHostname (url : String) : String :=
  match jsURL url with
  | some u =>
    if strStartsWith u.hostname "www." then ⟨u.hostname.data.drop 4⟩ else u.hostname
  | none => url

/-- The search haystack: `[title, note, tags.join(' '),
getHostname(url)].join(' ').toLowerCase()`. -/
def bookmarkHaystack (b : Bookmark) : String :=
  strLower (joinSpace [b.title, b.note, joinSpace b.tags, getHostname b.url])

/-- `filteredBookmarks` of src/unnamed/part_000 (lines 260–282): the search
text is trimmed and lowercased once; a record passes when the tag filter is
empty or its tags contain the tag exactly, and — when the trimmed search is
non-empty — the lowercased haystack contains the search as a substring. -/
def filteredBookmarks (combined : List Bookmark) (filters : Filters) :
    List Bookmark :=
  let search := strLower (strTrim filters.search)
  combined.filter (fun b =>
    let matchesTag := filters.tag == "" || b.tags.contains filters.tag
    if search == "" then matchesTag
    else matchesTag && strContains (bookmarkHaystack b) search)

/-! ### Draft cache (the mount-time restore effect, src/unnamed/part_000,
lines 221–240) -/

/-- The four form fields. -/
structure FormFields where
  title : String
  url : String
  tags : String
  note : String
deriving DecidableEq

/-- String-typed property read used by the draft overlay
(`typeof parsed.f === 'string' ? parsed.f : previous.f`). -/
def getStrField (v : JValue) (k : String) : Option String :=
  match jGetV v k with
  | some (.jstr s) => some s
  | _ => none

/-- The draft restore of the mount effect (lines 221–240), which implements the
spec's `loadDraft`: absent slot and unparseable slot leave the fields
unchanged; otherwise each of the four fields is overlaid individually, taking
the stored value only when it is a string. -/
def restoreDraft (stored : Option (Option JValue)) (previous : FormFields) :
    FormFields :=
  match stored with
  | none => previous
  | some none => previous
  | some (some v) =>
    { title := (getStrField v "title").getD previous.title
      url := (getStrField v "url").getD previous.url
      tags := (getStrField v "tags").getD previous.tags
      note := (getStrField v "note").getD previous.note }

/-! ## Claim theorems -/

/-- Generic first-match characterization of `List.find?`: if position `i`
matches and every earlier position does not, `find?` returns the element at
`i`. -/
theorem find_first_of_index {α : Type} (p : α → Bool) :
    ∀ (l : List α) (i : Nat) (hi : i < l.length),
      p (l.get ⟨i, hi⟩) = true →
      (∀ j (hj : j < i), p (l.get ⟨j, Nat.lt_trans hj hi⟩) = false) →
      l.find? p = some (l.get ⟨i, hi⟩)
  | x :: xs, 0, _, hp, _ => by
      have hx : p x = true := hp
      simp [List.find?_cons, hx]
  | x :: xs, i + 1, hi, hp, hb => by
      have hx : p x = false := hb 0 (Nat.succ_pos i)
      simp only [List.find?_cons, hx]
      exact find_first_of_index p xs i (Nat.lt_of_succ_lt_succ hi) hp
        (fun j hj => hb (j + 1) (Nat.succ_lt_succ hj))

/-- C2: `classify` (= `detectUrlType`) is total and deterministic (it is a Lean
function); every string that fails URL parsing yields `Generic` with no error;
on a parsed URL the result is the category of the first matching rule in the
static rule order (and `Generic` when no rule matches); and the four concrete
evaluations of the spec hold: a docs.google.com `/document/` path is a Google
Doc, a `/spreadsheets/` path is a Google Sheet, a miro.com host with an
`/app/board/` path is a Miro Board, and a non-URL string is Generic. -/
theorem detectUrlType_spec :
    (∀ s, jsURL s = none → detectUrlType s = .Generic) ∧
    (∀ s u, jsURL s = some u → (∀ r ∈ rules, r.2 u = false) →
      detectUrlType s = .Generic) ∧
    (∀ s u (i : Nat) (hi : i < rules.length), jsURL s = some u →
      (rules.get ⟨i, hi⟩).2 u = true →
      (∀ j (hj : j < i), (rules.get ⟨j, Nat.lt_trans hj hi⟩).2 u = false) →
      detectUrlType s = (rules.get ⟨i, hi⟩).1) ∧
    detectUrlType "https://docs.google.com/document/d/abc" = .GoogleDoc ∧
    detectUrlType "https://docs.google.com/spreadsheets/d/abc" = .GoogleSheet ∧
    detectUrlType "https://sub.miro.com/app/board/xyz" = .MiroBoard ∧
    detectUrlType "not a url" = .Generic := by
  refine ⟨?_, ?_, ?_, by decide, by decide, by decide, by decide⟩
  · intro s h
    simp [detectUrlType, h]
  · intro s u h hnone
    have : rules.find? (fun r => r.2 u) = none := by
      rw [List.find?_eq_none]
      intro r hr
      simp [hnone r hr]
    simp [detectUrlType, h, this]
  · intro s u i hi h hp hb
    have : rules.find? (fun r => r.2 u) = some (rules.get ⟨i, hi⟩) :=
      find_first_of_index (fun r => r.2 u) rules i hi hp hb
    simp [detectUrlType, h, this]

/-- Witness for C2 at concrete inputs: `"not a url"` fails URL parsing and
classifies as `Generic`. -/
theorem detectUrlType_spec_witness :
    jsURL "not a url" = none ∧ detectUrlType "not a url" = .Generic :=
  ⟨by decide, detectUrlType_spec.1 "not a url" (by decide)⟩

/-- C6: the two import failure conditions are distinguished and both leave the
user collection unchanged: a parsed non-array top level (such as `"{}"`, which
parses to an empty object) yields the batch-level `notArray` outcome with zero
accepted entries, while an array whose elements all fail validation (such as
`"[{\"title\":\"\"}]"`) yields the distinct `emptyResult` outcome, also with
zero accepted entries; and on every outcome other than success the resulting
user collection is exactly the previous one. -/
theorem importProcess_failure_modes (prev : List Bookmark) (now : String)
    (genId : Nat → String) :
    importProcess (some (some (.jobj []))) prev now genId = (.notArray, prev) ∧
    importProcess (some (some (.jarr [.jobj [("title", .jstr "")]]))) prev now genId
      = (.emptyResult, prev) ∧
    ImportOutcome.notArray ≠ ImportOutcome.emptyResult ∧
    (∀ raw, (∀ bs, (importProcess raw prev now genId).1 ≠ .imported bs) →
      (importProcess raw prev now genId).2 = prev) := by
  refine ⟨rfl, rfl, by simp, ?_⟩
  intro raw h
  cases raw with
  | none => rfl
  | some o =>
    cases o with
    | none => rfl
    | some v =>
      cases v with
      | jarr l =>
        by_cases he : (importEntries now genId l).isEmpty = true
        · simp [importProcess, he]
        · exact absurd
            (by simp [importProcess, he] :
              (importProcess (some (some (.jarr l))) prev now genId).1
                = .imported (importEntries now genId l))
            (h _)
      | jnull => rfl
      | jbool b => rfl
      | jnum n => rfl
      | jstr s => rfl
      | jobj fs => rfl

/-- Witness for C6 at concrete inputs: both failure payloads leave an empty
collection empty, and the parse-failure outcome also leaves it unchanged. -/
theorem importProcess_failure_modes_witness :
    importProcess (some (some (.jobj []))) [] "2024-01-01T00:00:00.000Z"
        (fun _ => "g") = (.notArray, []) ∧
    importProcess (some (some (.jarr [.jobj [("title", .jstr "")]]))) []
        "2024-01-01T00:00:00.000Z" (fun _ => "g") = (.emptyResult, []) ∧
    (importProcess none [] "2024-01-01T00:00:00.000Z" (fun _ => "g")).2 = [] :=
  ⟨(importProcess_failure_modes [] "2024-01-01T00:00:00.000Z" (fun _ => "g")).1,
   (importProcess_failure_modes [] "2024-01-01T00:00:00.000Z" (fun _ => "g")).2.1,
   (importProcess_failure_modes [] "2024-01-01T00:00:00.000Z" (fun _ => "g")).2.2.2
     none (fun _ h => ImportOutcome.noConfusion h)⟩

/-- C8: `loadDraft` (the mount-time draft restore) returns the baseline
unchanged when no draft is stored (and when the stored text fails to parse),
and otherwise overlays each of the four fields individually, taking the stored
value only when it is present and a string; in particular the partial draft
`{url:"https://a.com"}` over baseline `{title:"x", url:"", tags:"", note:""}`
yields `{title:"x", url:"https://a.com", tags:"", note:""}`. -/
theorem restoreDraft_spec (previous : FormFields) :
    restoreDraft none previous = previous ∧
    restoreDraft (some none) previous = previous ∧
    (∀ v, getStrField v "title" = none →
      (restoreDraft (some (some v)) previous).title = previous.title) ∧
    (∀ v, getStrField v "url" = none →
      (restoreDraft (some (some v)) previous).url = previous.url) ∧
    (∀ v, getStrField v "tags" = none →
      (restoreDraft (some (some v)) previous).tags = previous.tags) ∧
    (∀ v, getStrField v "note" = none →
      (restoreDraft (some (some v)) previous).note = previous.note) ∧
    (∀ v s, getStrField v "title" = some s →
      (restoreDraft (some (some v)) previous).title = s) ∧
    (∀ v s, getStrField v "url" = some s →
      (restoreDraft (some (some v)) previous).url = s) ∧
    (∀ v s, getStrField v "tags" = some s →
      (restoreDraft (some (some v)) previous).tags = s) ∧
    (∀ v s, getStrField v "note" = some s →
      (restoreDraft (some (some v)) previous).note = s) ∧
    restoreDraft (some (some (.jobj [("url", .jstr "https://a.com")])))
        ⟨"x", "", "", ""⟩ = ⟨"x", "https://a.com", "", ""⟩ := by
  refine ⟨rfl, rfl, ?_, ?_, ?_, ?_, ?_, ?_, ?_, ?_, rfl⟩ <;>
    first
      | (intro v h; simp [restoreDraft, h])
      | (intro v s h; simp [restoreDraft, h])

/-- Witness for C8 at the spec's concrete input: the stored partial draft has
no `title` string, so the baseline title `"x"` survives, and the stored `url`
string overlays the baseline url. -/
theorem restoreDraft_spec_witness :
    getStrField (.jobj [("url", .jstr "https://a.com")]) "title" = none ∧
    (restoreDraft (some (some (.jobj [("url", .jstr "https://a.com")])))
        ⟨"x", "", "", ""⟩).title = "x" ∧
    (restoreDraft (some (some (.jobj [("url", .jstr "https://a.com")])))
        ⟨"x", "", "", ""⟩).url = "https://a.com" :=
  ⟨rfl,
   (restoreDraft_spec ⟨"x", "", "", ""⟩).2.2.1 _ rfl,
   (restoreDraft_spec ⟨"x", "", "", ""⟩).2.2.2.2.2.2.2.1 _ _ rfl⟩

/-- C4 counterexample: an imported element that carries
`urlType: "Google Doc"` in the payload together with a generic URL is accepted
with `urlType = Generic` — the payload field is not kept, the classifier result
is used unconditionally (the claim predicts the kept category `Google Doc`,
which is what `coerceUrlType` would produce for the stored string, as the load
path does). -/
theorem importEntry_urlType_counterexample :
    (normalizeImportEntry "2024-01-01T00:00:00.000Z" "gid"
        (.jobj [("title", .jstr "t"), ("url", .jstr "https://example.com/a"),
                ("urlType", .jstr "Google Doc")])).map Bookmark.urlType
      = some .Generic ∧
    jGetV (.jobj [("title", .jstr "t"), ("url", .jstr "https://example.com/a"),
                  ("urlType", .jstr "Google Doc")]) "urlType"
      = some (.jstr "Google Doc") ∧
    coerceUrlType (.jstr "Google Doc") = .GoogleDoc ∧
    UrlType.Generic ≠ UrlType.GoogleDoc := by
  refine ⟨by decide, rfl, rfl, by decide⟩

/-- C4 amended: every element accepted by `importBatch` gets its `urlType`
computed by the URL Classifier from its (trimmed) url; a `urlType` present in
the payload is ignored (unlike the load path of §4.1, which keeps it). -/
theorem importEntry_urlType_computed (now gid : String) (e : JValue)
    (b : Bookmark) (h : normalizeImportEntry now gid e = some b) :
    b.urlType = detectUrlType b.url := by
  cases e with
  | jobj fs =>
    simp only [normalizeImportEntry] at h
    split at h
    · exact absurd h (by simp)
    · split at h
      · exact absurd h (by simp)
      · simp only [Option.some.injEq] at h
        subst h
        rfl
  | jnull => simp [normalizeImportEntry] at h
  | jbool x => simp [normalizeImportEntry] at h
  | jnum x => simp [normalizeImportEntry] at h
  | jstr x => simp [normalizeImportEntry] at h
  | jarr x => simp [normalizeImportEntry] at h

/-- The accepted record of C4's witness. -/
def importedSample : Bookmark :=
  { id := "i1", title := "t", url := "https://example.com/b",
    urlType := .Generic, tags := [], note := "",
    savedAt := "2024-01-01T00:00:00.000Z" }

/-- Witness for C4's amended theorem at a concrete accepted element. -/
theorem importEntry_urlType_computed_witness :
    normalizeImportEntry "2024-01-01T00:00:00.000Z" "g"
        (.jobj [("title", .jstr "t"), ("url", .jstr "https://example.com/b"),
                ("id", .jstr "i1")])
      = some importedSample ∧
    importedSample.urlType = detectUrlType importedSample.url :=
  ⟨by decide,
   importEntry_urlType_computed "2024-01-01T00:00:00.000Z" "g"
     (.jobj [("title", .jstr "t"), ("url", .jstr "https://example.com/b"),
             ("id", .jstr "i1")])
     importedSample (by decide)⟩

/-- The bookmark of C9's counterexample. -/
def searchCEBookmark : Bookmark :=
  { id := "b1", title := "abc", url := "https://h.com/", urlType := .Generic,
    tags := [], note := "", savedAt := "2024-01-01T00:00:00.000Z" }

/-- C9 counterexample: with the filter pair `{search: " abc", tag: ""}` the
code returns the record titled `"abc"` (it trims the search text first), but
the claim's predicate — the raw search string `" abc"` occurring
case-insensitively in the space-joined haystack — is false for that record, so
`filter` does not return exactly the records satisfying the claim's
predicate. -/
theorem filteredBookmarks_counterexample :
    filteredBookmarks [searchCEBookmark] ⟨" abc", ""⟩ = [searchCEBookmark] ∧
    ¬ ((("" : String) = "" ∨ searchCEBookmark.tags.contains "" = true) ∧
       ((" abc" : String) = "" ∨
        strContains (bookmarkHaystack searchCEBookmark) (strLower " abc") = true)) := by
  refine ⟨by decide, ?_⟩
  intro hc
  rcases hc.2 with h | h
  · exact absurd h (by decide)
  · exact absurd h (by decide)

/-- C9 amended: `filter` returns exactly the records for which (tag is empty
OR the record's tags contain the tag) AND (the **trimmed** search is empty OR
the trimmed search occurs case-insensitively as a substring of the space-joined
concatenation of title, note, tags, and the URL's hostname with a leading
`www.` stripped — where the raw url string stands in for the hostname when the
url fails to parse), preserving the input order of the collection. -/
theorem filteredBookmarks_amended (combined : List Bookmark) (f : Filters) :
    filteredBookmarks combined f
      = combined.filter (fun b =>
          (f.tag == "" || b.tags.contains f.tag) &&
          (strTrim f.search == "" ||
           strContains (bookmarkHaystack b) (strLower (strTrim f.search)))) := by
  simp only [filteredBookmarks]
  apply List.filter_congr
  intro b _
  by_cases h : strTrim f.search = ""
  · simp [h, strLower]
  · have h2 : strLower (strTrim f.search) ≠ "" := by
      intro hc
      apply h
      have : (strTrim f.search).data.map Char.toLower = [] := congrArg String.data hc
      have hdata : (strTrim f.search).data = [] := List.map_eq_nil_iff.mp this
      cases hs : strTrim f.search with
      | mk d => rw [hs] at hdata; simp at hdata; simp [hdata]
    have hb1 : (strLower (strTrim f.search) == "") = false := by
      simpa using h2
    have hb2 : (strTrim f.search == "") = false := by
      simpa using h
    simp [hb1, hb2]

/-- C5: when `importBatch` merges accepted entries into the user collection,
an imported entry whose id collides with an existing user record's id replaces
that record: the merged collection contains the (first) imported entry with
that id, and every record of the merged collection carrying that id is that
imported entry — so a colliding previous record survives only if it is
literally the imported one.  (This is the opposite precedence from the
seed-versus-user rule of `combinedBookmarks`.) -/
theorem importMerge_import_precedence (imp prev : List Bookmark) (i : Bookmark)
    (hfirst : imp.find? (fun b => b.id == i.id) = some i) :
    i ∈ importMerge imp prev ∧
    ∀ b ∈ importMerge imp prev, b.id = i.id → b = i := by
  have hfind : (imp ++ prev).find? (fun b => b.id == i.id) = some i := by
    induction imp with
    | nil => simp [List.find?] at hfirst
    | cons x rest ih =>
      by_cases hx : (x.id == i.id) = true
      · rw [find_id_cons_eq _ hx] at hfirst
        rw [List.cons_append, find_id_cons_eq _ hx]
        exact hfirst
      · have hx' : (x.id == i.id) = false := by simpa using hx
        rw [find_id_cons_ne _ hx'] at hfirst
        rw [List.cons_append, find_id_cons_ne _ hx']
        exact ih hfirst
  constructor
  · exact mem_jsSort.mpr (mem_dedupeById_of_find hfind)
  · intro b hb hbid
    have hbd : b ∈ dedupeById (imp ++ prev) := mem_jsSort.mp hb
    have hfb := find_of_mem_dedupeById hbd
    rw [hbid] at hfb
    rw [hfind] at hfb
    exact (Option.some.injEq _ _).mp hfb.symm

/-- The imported and previous records of C5's witness: same id, different
content. -/
def importedCollider : Bookmark :=
  { id := "d1", title := "new", url := "https://new.example/", urlType := .Generic,
    tags := [], note := "", savedAt := "2024-02-02T00:00:00.000Z" }

/-- Witness for C5 at a concrete collision: the imported record is the first
id-match among the imported entries and survives the merge. -/
theorem importMerge_import_precedence_witness :
    [importedCollider].find? (fun b => b.id == importedCollider.id)
      = some importedCollider ∧
    importedCollider ∈ importMerge [importedCollider]
      [{ id := "d1", title := "old", url := "https://old.example/",
         urlType := .Generic, tags := [], note := "",
         savedAt := "2024-01-01T00:00:00.000Z" }] :=
  ⟨by decide,
   (importMerge_import_precedence [importedCollider]
     [{ id := "d1", title := "old", url := "https://old.example/",
        urlType := .Generic, tags := [], note := "",
        savedAt := "2024-01-01T00:00:00.000Z" }]
     importedCollider (by decide)).1⟩

/-- Elements of `loadEntriesAux` output are normalizations of input elements. -/
theorem mem_loadEntriesAux {now : String} {genId : Nat → String} {b : Bookmark} :
    ∀ {m : List JValue} {i : Nat}, b ∈ loadEntriesAux now genId i m →
      ∃ j x, x ∈ m ∧ b = normalizeLoaded now (genId j) x := by
  intro m
  induction m with
  | nil => intro i h; simp [loadEntriesAux] at h
  | cons x rest ih =>
    intro i h
    rcases List.mem_cons.mp h with rfl | h
    · exact ⟨i, x, by simp, rfl⟩
    · obtain ⟨j, y, hy, hb⟩ := ih h
      exact ⟨j, y, by simp [hy], hb⟩

/-- Input elements appear normalized in `loadEntriesAux` output. -/
theorem loadEntriesAux_mem_of_mem {now : String} {genId : Nat → String}
    {x : JValue} :
    ∀ {m : List JValue}, x ∈ m → ∀ i : Nat,
      ∃ j, normalizeLoaded now (genId j) x ∈ loadEntriesAux now genId i m := by
  intro m
  induction m with
  | nil => intro h; simp at h
  | cons y rest ih =>
    intro h i
    rcases List.mem_cons.mp h with rfl | h
    · exact ⟨i, by simp [loadEntriesAux]⟩
    · obtain ⟨j, hj⟩ := ih h (i + 1)
      exact ⟨j, by simp [loadEntriesAux, hj]⟩

/-- C3: `load()` never raises for malformed content: an absent stored value, a
stored value that is not valid JSON, and a parsed top level that is not an
array all yield the empty collection; array elements failing the shape check
(an object carrying both a `title` and a `url` field) contribute nothing to the
output; and every record in the output has an absolute-parseable url. -/
theorem loadUserBookmarks_spec (now : String) (genId : Nat → String) :
    loadUserBookmarks none now genId = [] ∧
    loadUserBookmarks (some none) now genId = [] ∧
    (∀ v : JValue, (∀ l, v ≠ .jarr l) →
      loadUserBookmarks (some (some v)) now genId = []) ∧
    (∀ l : List JValue, loadUserBookmarks (some (some (.jarr l))) now genId
        = loadUserBookmarks (some (some (.jarr (l.filter loadShapeOK)))) now genId) ∧
    (∀ raw b, b ∈ loadUserBookmarks raw now genId → (jsURL b.url).isSome = true) := by
  refine ⟨rfl, rfl, ?_, ?_, ?_⟩
  · intro v h
    cases v with
    | jarr l => exact absurd rfl (h l)
    | jnull => rfl
    | jbool b => rfl
    | jnum n => rfl
    | jstr s => rfl
    | jobj fs => rfl
  · intro l
    simp [loadUserBookmarks, List.filter_filter]
  · intro raw b hb
    match raw with
    | none => simp [loadUserBookmarks] at hb
    | some none => simp [loadUserBookmarks] at hb
    | some (some (.jarr l)) =>
      exact (List.mem_filter.mp hb).2
    | some (some .jnull) => simp [loadUserBookmarks] at hb
    | some (some (.jbool x)) => simp [loadUserBookmarks] at hb
    | some (some (.jnum x)) => simp [loadUserBookmarks] at hb
    | some (some (.jstr x)) => simp [loadUserBookmarks] at hb
    | some (some (.jobj x)) => simp [loadUserBookmarks] at hb

/-- The record loaded by C3's witness. -/
def loadedSample : Bookmark :=
  { id := "u", title := "Untitled", url := "https://ex.com/p",
    urlType := .Generic, tags := [], note := "",
    savedAt := "2024-01-01T00:00:00.000Z" }

/-- Witness for C3 at concrete inputs: a non-array top level (`{}`) loads as
the empty collection, and the single record loaded from a well-formed stored
array has a parseable url. -/
theorem loadUserBookmarks_spec_witness :
    loadUserBookmarks (some (some (.jobj []))) "2024-01-01T00:00:00.000Z"
        (fun _ => "u") = [] ∧
    (jsURL loadedSample.url).isSome = true :=
  ⟨(loadUserBookmarks_spec "2024-01-01T00:00:00.000Z" (fun _ => "u")).2.2.1
     (.jobj []) (fun _ h => JValue.noConfusion h),
   (loadUserBookmarks_spec "2024-01-01T00:00:00.000Z" (fun _ => "u")).2.2.2.2
     (some (some (.jarr [.jobj [("title", .jstr "  "), ("url", .jstr "https://ex.com/p")]])))
     loadedSample (by decide)⟩

/-- The normalized title is never empty. -/
theorem normalizeLoaded_title_ne (now gid : String) (x : JValue) :
    (normalizeLoaded now gid x).title ≠ "" := by
  simp only [normalizeLoaded]
  by_cases h : strTrim (jsToString ((jGetV x "title").getD .jnull)) = ""
  · simp [h]
  · simp [h]

/-- C10: `load()` never drops a record merely because of its title: the title
of every normalized record is non-empty; a shape-passing element whose
stringified, trimmed title is empty is normalized with the literal title
`"Untitled"`; and every shape-passing element whose trimmed stringified url
parses produces a record in the output (regardless of its title). -/
theorem loadUserBookmarks_untitled (now : String) (genId : Nat → String) :
    (∀ raw b, b ∈ loadUserBookmarks raw now genId → b.title ≠ "") ∧
    (∀ gid x, strTrim (jsToString ((jGetV x "title").getD .jnull)) = "" →
      (normalizeLoaded now gid x).title = "Untitled") ∧
    (∀ (l : List JValue) (x : JValue), x ∈ l → loadShapeOK x = true →
      (jsURL (strTrim (jsToString ((jGetV x "url").getD .jnull)))).isSome = true →
      ∃ j, normalizeLoaded now (genId j) x
            ∈ loadUserBookmarks (some (some (.jarr l))) now genId) := by
  refine ⟨?_, ?_, ?_⟩
  · intro raw b hb
    match raw with
    | none => simp [loadUserBookmarks] at hb
    | some none => simp [loadUserBookmarks] at hb
    | some (some (.jarr l)) =>
      obtain ⟨j, x, _, hb'⟩ := mem_loadEntriesAux (List.mem_filter.mp hb).1
      rw [hb']
      exact normalizeLoaded_title_ne now (genId j) x
    | some (some .jnull) => simp [loadUserBookmarks] at hb
    | some (some (.jbool x)) => simp [loadUserBookmarks] at hb
    | some (some (.jnum x)) => simp [loadUserBookmarks] at hb
    | some (some (.jstr x)) => simp [loadUserBookmarks] at hb
    | some (some (.jobj x)) => simp [loadUserBookmarks] at hb
  · intro gid x h
    simp [normalizeLoaded, h]
  · intro l x hx hshape hurl
    have hxf : x ∈ l.filter loadShapeOK := List.mem_filter.mpr ⟨hx, hshape⟩
    obtain ⟨j, hj⟩ := loadEntriesAux_mem_of_mem hxf 0
    refine ⟨j, ?_⟩
    simp only [loadUserBookmarks]
    refine List.mem_filter.mpr ⟨hj, ?_⟩
    have hu : (normalizeLoaded now (genId j) x).url
        = strTrim (jsToString ((jGetV x "url").getD .jnull)) := rfl
    rw [hu]
    exact hurl

/-- Witness for C10 at a concrete stored record with a whitespace-only title:
it is normalized to `"Untitled"` and kept. -/
theorem loadUserBookmarks_untitled_witness :
    strTrim (jsToString ((jGetV (.jobj [("title", .jstr "  "),
        ("url", .jstr "https://ex.com/p")]) "title").getD .jnull)) = "" ∧
    (normalizeLoaded "2024-01-01T00:00:00.000Z" "u"
      (.jobj [("title", .jstr "  "), ("url", .jstr "https://ex.com/p")])).title
      = "Untitled" :=
  ⟨by decide,
   (loadUserBookmarks_untitled "2024-01-01T00:00:00.000Z" (fun _ => "u")).2.1
     "u" (.jobj [("title", .jstr "  "), ("url", .jstr "https://ex.com/p")])
     (by decide)⟩

/-- C1: `combine` (= `combinedBookmarks`) produces, for collections whose
`savedAt` values all parse, exactly the stable descending `savedAt` sort of the
claim's pipeline — seed records, followed by the user records whose id collides
with no seed id, deduplicated by id keeping the first occurrence: every
key-class of the output equals the corresponding key-class of that pipeline
list (this is stability: ties keep their pre-sort relative order, and the
output is a permutation of the pipeline list), the output is pairwise
descending in the `savedAt` key, and output ids are pairwise distinct (so a
user collection with two records of one id contributes exactly one, and a user
record colliding with a seed id is dropped in favor of the seed record). -/
theorem combinedBookmarks_spec (seed user : List Bookmark)
    (hv : ∀ b ∈ seed ++ user, validSavedAt b = true) :
    (∀ t : Int,
      (combinedBookmarks seed user).filter (fun b => savedAtKey b == t)
        = (dedupeById (seed ++ user.filter
            (fun b => !((seed.map Bookmark.id).contains b.id)))).filter
            (fun b => savedAtKey b == t)) ∧
    (combinedBookmarks seed user).Pairwise
      (fun a b => savedAtKey b ≤ savedAtKey a) ∧
    ((combinedBookmarks seed user).map Bookmark.id).Nodup := by
  have hm : ∀ b ∈ dedupeById (seed ++ user.filter
      (fun b => !((seed.map Bookmark.id).contains b.id))), validSavedAt b = true := by
    intro b hb
    have hmem := mem_of_mem_dedupeById hb
    rcases List.mem_append.mp hmem with h | h
    · exact hv b (List.mem_append.mpr (Or.inl h))
    · exact hv b (List.mem_append.mpr (Or.inr (List.mem_filter.mp h).1))
  refine ⟨fun t => jsSort_filter_key t hm, jsSort_pairwise hm, ?_⟩
  have hperm := (jsSort_perm bookmarkLe (dedupeById (seed ++ user.filter
      (fun b => !((seed.map Bookmark.id).contains b.id))))).map Bookmark.id
  exact (List.Perm.nodup_iff hperm).mpr (dedupeById_ids_nodup _)

/-- The user record of C1's witness (its `savedAt` ties with a seed record). -/
def combineSampleUser : Bookmark :=
  { id := "user-1", title := "User note", url := "https://u.example/",
    urlType := .Generic, tags := [], note := "",
    savedAt := "2024-07-02T10:15:00.000Z" }

/-- Witness for C1 at the real seed collection plus one user record: all dates
parse, and the combined view has pairwise-distinct ids and descending keys. -/
theorem combinedBookmarks_spec_witness :
    (seedBookmarks ++ [combineSampleUser]).all validSavedAt = true ∧
    ((combinedBookmarks seedBookmarks [combineSampleUser]).map Bookmark.id).Nodup ∧
    (combinedBookmarks seedBookmarks [combineSampleUser]).Pairwise
      (fun a b => savedAtKey b ≤ savedAtKey a) :=
  ⟨by decide,
   (combinedBookmarks_spec seedBookmarks [combineSampleUser] (by decide)).2.2,
   (combinedBookmarks_spec seedBookmarks [combineSampleUser] (by decide)).2.1⟩

/-- `filterMap` with a keep-if predicate is `filter`. -/
theorem filterMap_trim_filter (tags : List String) :
    tags.filterMap (fun s => if strTrim s = "" then none else some s)
      = tags.filter (fun s => !(strTrim s == "")) := by
  induction tags with
  | nil => rfl
  | cons s rest ih =>
    simp only [List.filterMap_cons, List.filter_cons]
    by_cases h : strTrim s = ""
    · simp [h, ih]
    · simp [h, ih]

/-- Tag normalization on an all-string tags array keeps exactly the
non-whitespace strings. -/
theorem normalizeTags_strs (tags : List String) :
    normalizeTags (some (.jarr (tags.map .jstr)))
      = tags.filter (fun s => !(strTrim s == "")) := by
  have h0 : normalizeTags (some (.jarr (tags.map .jstr)))
      = (tags.map JValue.jstr).filterMap (fun t =>
          match t with
          | .jstr s => if strTrim s ≠ "" then some s else none
          | _ => none) := rfl
  rw [h0, List.filterMap_map]
  have hfun : ((fun t =>
          match t with
          | .jstr s => if strTrim s ≠ "" then some s else none
          | _ => none) ∘ JValue.jstr)
      = (fun s => if strTrim s = "" then none else (some s : Option String)) := by
    funext s
    by_cases h : strTrim s = "" <;> simp [Function.comp, h]
  rw [hfun]
  exact filterMap_trim_filter tags

/-- Importing the JSON encoding of a bookmark with a non-empty trimmed title
and a parseable trimmed url accepts it, preserving the id (and trimming the
mutable text fields). -/
theorem normalizeImport_export_entry (now gid : String) (b : Bookmark)
    (ht : strTrim b.title ≠ "") (hu : (jsURL (strTrim b.url)).isSome = true) :
    normalizeImportEntry now gid (bookmarkToJValue b)
      = some { id := b.id, title := strTrim b.title, url := strTrim b.url,
               urlType := detectUrlType (strTrim b.url),
               tags := b.tags.filter (fun s => !(strTrim s == "")),
               note := strTrim b.note,
               savedAt := if (jsDateParse b.savedAt).isSome then b.savedAt
                          else now } := by
  have hurlne : strTrim b.url ≠ "" := by
    intro hc
    rw [hc] at hu
    exact absurd hu (by decide)
  have hnone : (jsURL (strTrim b.url)).isNone = false := by
    cases h : jsURL (strTrim b.url) with
    | none => rw [h] at hu; simp at hu
    | some u => simp [h]
  have hstep : normalizeImportEntry now gid (bookmarkToJValue b)
      = (if strTrim b.title = "" ∨ strTrim b.url = "" then none
         else if (jsURL (strTrim b.url)).isNone then none
         else some { id := b.id, title := strTrim b.title, url := strTrim b.url,
                     urlType := detectUrlType (strTrim b.url),
                     tags := normalizeTags (some (.jarr (b.tags.map .jstr))),
                     note := strTrim b.note,
                     savedAt := if (jsDateParse b.savedAt).isSome then b.savedAt
                                else now }) := rfl
  rw [hstep, if_neg (not_or.mpr ⟨ht, hurlne⟩), if_neg (by simp [hnone]),
    normalizeTags_strs]

/-- Accepted entries of an exported collection carry exactly the original ids
in order, when every record has a non-empty trimmed title and a parseable
trimmed url. -/
theorem importEntriesAux_export_ids (now : String) (genId : Nat → String) :
    ∀ (l : List Bookmark) (i : Nat),
      (∀ b ∈ l, strTrim b.title ≠ "" ∧ (jsURL (strTrim b.url)).isSome = true) →
      (importEntriesAux now genId i (l.map bookmarkToJValue)).map Bookmark.id
        = l.map Bookmark.id
  | [], _, _ => rfl
  | b :: rest, i, h => by
      have hb := h b (by simp)
      have hrest : ∀ x ∈ rest,
          strTrim x.title ≠ "" ∧ (jsURL (strTrim x.url)).isSome = true :=
        fun x hx => h x (by simp [hx])
      simp only [List.map_cons, importEntriesAux,
        normalizeImport_export_entry now (genId i) b hb.1 hb.2]
      simp only [List.map_cons, List.cons.injEq]
      exact ⟨trivial, importEntriesAux_export_ids now genId rest (i + 1) hrest⟩

/-- Every id occurring in a collection has a first record carrying it. -/
theorem find_id_of_mem_ids {l : List Bookmark} {uid : String}
    (h : uid ∈ l.map Bookmark.id) :
    ∃ i, l.find? (fun y => y.id == uid) = some i ∧ i.id = uid := by
  induction l with
  | nil => simp at h
  | cons x rest ih =>
    by_cases hx : x.id = uid
    · refine ⟨x, ?_, hx⟩
      have hb : (x.id == uid) = true := by simp [hx]
      simp [List.find?_cons, hb]
    · have h' : uid ∈ rest.map Bookmark.id := by
        rcases List.mem_cons.mp h with h0 | h0
        · exact absurd h0.symm hx
        · exact h0
      obtain ⟨i, hf, hi⟩ := ih h'
      have hne : (x.id == uid) = false := by simp [hx]
      exact ⟨i, by simp [List.find?_cons, hne, hf], hi⟩

/-- Deduplication by id preserves the set of ids. -/
theorem mem_ids_dedupeById {l : List Bookmark} {uid : String} :
    uid ∈ (dedupeById l).map Bookmark.id ↔ uid ∈ l.map Bookmark.id := by
  constructor
  · intro h
    obtain ⟨b, hb, hid⟩ := List.mem_map.mp h
    exact List.mem_map.mpr ⟨b, mem_of_mem_dedupeById hb, hid⟩
  · intro h
    obtain ⟨i, hf, hid⟩ := find_id_of_mem_ids h
    have hf' : l.find? (fun y => y.id == i.id) = some i := by rw [hid]; exact hf
    exact List.mem_map.mpr ⟨i, mem_dedupeById_of_find hf', hid⟩

/-- C7: export/import round trip.  `exportSnapshot` produces a JSON array of
exactly the user collection (seed excluded — it serializes only the user
collection), and for every non-empty user collection of records with non-empty
trimmed titles and parseable trimmed urls, importing the exported payload into
an empty user collection yields a collection with exactly the same set of
ids. -/
theorem export_import_roundtrip (user : List Bookmark) (now : String)
    (genId : Nat → String) (hne : user ≠ [])
    (hok : ∀ b ∈ user, strTrim b.title ≠ "" ∧ (jsURL (strTrim b.url)).isSome = true) :
    exportSnapshot user = .jarr (user.map bookmarkToJValue) ∧
    ∀ uid, (uid ∈ (importProcess (some (some (exportSnapshot user))) []
          now genId).2.map Bookmark.id
        ↔ uid ∈ user.map Bookmark.id) := by
  refine ⟨rfl, ?_⟩
  intro uid
  have hids : (importEntries now genId (user.map bookmarkToJValue)).map Bookmark.id
      = user.map Bookmark.id := importEntriesAux_export_ids now genId user 0 hok
  have hne' : (importEntries now genId (user.map bookmarkToJValue)).isEmpty
      = false := by
    cases himp : importEntries now genId (user.map bookmarkToJValue) with
    | nil =>
      rw [himp] at hids
      cases user with
      | nil => exact absurd rfl hne
      | cons u us => simp at hids
    | cons a as => rfl
  have hproc : (importProcess (some (some (exportSnapshot user))) [] now genId).2
      = importMerge (importEntries now genId (user.map bookmarkToJValue)) [] := by
    show (importProcess (some (some (.jarr (user.map bookmarkToJValue)))) []
        now genId).2 = _
    simp [importProcess, hne']
  rw [hproc]
  have hperm := (jsSort_perm bookmarkLe (dedupeById
      (importEntries now genId (user.map bookmarkToJValue) ++ []))).map Bookmark.id
  rw [importMerge, hperm.mem_iff, List.append_nil, mem_ids_dedupeById, hids]

/-- The user record of C7's witness. -/
def roundtripSample : Bookmark :=
  { id := "u1", title := "Hello", url := "https://ex.example/a",
    urlType := .Generic, tags := ["x"], note := "n",
    savedAt := "2024-03-03T03:03:03.000Z" }

/-- Witness for C7 at a one-record user collection: it is non-empty, satisfies
the normalization hypotheses, and its id survives the round trip. -/
theorem export_import_roundtrip_witness :
    ([roundtripSample] : List Bookmark).isEmpty = false ∧
    ([roundtripSample] : List Bookmark).all
      (fun b => !(strTrim b.title == "") && (jsURL (strTrim b.url)).isSome) = true ∧
    ("u1" ∈ (importProcess (some (some (exportSnapshot [roundtripSample]))) []
          "2024-01-01T00:00:00.000Z" (fun _ => "g")).2.map Bookmark.id
      ↔ "u1" ∈ ([roundtripSample] : List Bookmark).map Bookmark.id) :=
  ⟨rfl, by decide,
   (export_import_roundtrip [roundtripSample] "2024-01-01T00:00:00.000Z"
     (fun _ => "g") (by simp) (by decide)).2 "u1"⟩

end BookmarkManager
